import Mathlib

/-!
Verification of the ua-parser/uap-python core against its specification.

The Python source is shallowly embedded: pure functions become Lean
functions, the stateful caches become explicit state passing, and code
that can raise becomes `Option`/`Except`-valued.  Regexes are treated as
the spec treats them — an opaque capability: a compiled pattern is
modelled as a function `String → Option RegexMatch` returning the capture
groups of the first (leftmost) search match, and a regex-set engine as a
function `String → List Nat` returning the indices of matching patterns.

Renamings in the source history: `PartialResult` is called
`PartialParseResult` in `core.py`; both have fields
`(domains, user_agent, os, device, string)` and identical semantics.
-/

/-- `Domain` flag set from `core.py` (`USER_AGENT`, `OS`, `DEVICE` bits). -/
structure Domain where
  userAgent : Bool
  os : Bool
  device : Bool
deriving DecidableEq, Repr

/-- `Domain.ALL = USER_AGENT | OS | DEVICE`. -/
def Domain.all : Domain := ⟨true, true, true⟩

/-- Python `a in b` on `Domain` flags: subset test (`a & b == a`). -/
def Domain.subd (a b : Domain) : Bool :=
  (!a.userAgent || b.userAgent) && (!a.os || b.os) && (!a.device || b.device)

/-- Python `a | b` on `Domain` flags. -/
def Domain.union (a b : Domain) : Domain :=
  ⟨a.userAgent || b.userAgent, a.os || b.os, a.device || b.device⟩

/-- Python `a & ~b` on `Domain` flags (complement stays within the 3 bits). -/
def Domain.diff (a b : Domain) : Domain :=
  ⟨a.userAgent && !b.userAgent, a.os && !b.os, a.device && !b.device⟩

/-- `UserAgent` frozen dataclass from `core.py`. -/
structure UserAgent where
  family : String
  major : Option String
  minor : Option String
  patch : Option String
  patch_minor : Option String
deriving DecidableEq, Repr

/-- `OS` frozen dataclass from `core.py`. -/
structure OS where
  family : String
  major : Option String
  minor : Option String
  patch : Option String
  patch_minor : Option String
deriving DecidableEq, Repr

/-- `Device` frozen dataclass from `core.py`. -/
structure Device where
  family : String
  brand : Option String
  model : Option String
deriving DecidableEq, Repr

/-- `PartialResult` (`PartialParseResult` in `core.py`): domain fields plus
the flag set of resolved domains and the original input string. -/
structure PartialResult where
  domains : Domain
  user_agent : Option UserAgent
  os : Option OS
  device : Option Device
  string : String
deriving DecidableEq, Repr

/-- Python `a or b` on optional dataclass values: dataclass instances are
always truthy, so this is `Option.orElse`. -/
def optOr {α : Type} (a b : Option α) : Option α :=
  match a with
  | some x => some x
  | none => b

/-- A matcher, as the resolvers see one: an opaque callable
`apply : String → Option T` (`methodcaller("__call__", ua)` in
`basic.py`). -/
def MatcherFn (α : Type) : Type := String → Option α

/-- The `Matchers` triple from `core.py`: three ordered matcher lists. -/
structure MatchersT where
  uas : List (MatcherFn UserAgent)
  oss : List (MatcherFn OS)
  devs : List (MatcherFn Device)

/-- `next(filter(None, map(parse, matchers)), None)` from
`basic.Resolver.__call__`: the first non-`None` application in list
order. -/
def firstMatch {α : Type} (ms : List (MatcherFn α)) (ua : String) : Option α :=
  match ms with
  | [] => none
  | m :: rest =>
    match m ua with
    | some r => some r
    | none => firstMatch rest ua

/-- `basic.Resolver.__call__`: for each requested domain, first matching
rule in order; unrequested fields are `None`; `domains` is the requested
set. -/
def basicResolve (ms : MatchersT) (ua : String) (d : Domain) : PartialResult :=
  { domains := d
    string := ua
    user_agent := if d.userAgent then firstMatch ms.uas ua else none
    os := if d.os then firstMatch ms.oss ua else none
    device := if d.device then firstMatch ms.devs ua else none }

/-- `min(matches)` over a nonempty Python list of indices. -/
def minNat (l : List Nat) : Nat :=
  match l with
  | [] => 0
  | x :: xs => xs.foldl Nat.min x

/-- One domain of `re2.Resolver.__call__`: ask the set engine for matching
indices; empty means no match; otherwise run the matcher at the lowest
index.  An out-of-range index from a non-conforming engine (a Python
`IndexError`) is modelled as a no-match; the set-engine contract used in
the theorems guarantees indices are in range. -/
def setPick {α : Type} (idxs : List Nat) (ms : List (MatcherFn α)) (ua : String) :
    Option α :=
  if idxs.isEmpty then none
  else
    match ms[minNat idxs]? with
    | some m => m ua
    | none => none

/-- `re2.Resolver.__call__`: each requested domain is resolved through its
prefilter set (`Filter.Match` modelled by `su`/`so`/`sd`), unrequested
fields stay `None`. -/
def re2Resolve (su so sd : String → List Nat) (ms : MatchersT) (ua : String)
    (d : Domain) : PartialResult :=
  { domains := d
    string := ua
    user_agent := if d.userAgent then setPick (su ua) ms.uas ua else none
    os := if d.os then setPick (so ua) ms.oss ua else none
    device := if d.device then setPick (sd ua) ms.devs ua else none }

/-- `caching.CachingResolver.__call__`, for a fixed cache state: `lookup`
is what `self.cache[ua]` currently returns and `inner` the wrapped
resolver.  The write-back (`self.cache[ua] = r`) does not affect the
returned value and is not part of this function. -/
def cachingResolve (lookup : String → Option PartialResult)
    (inner : String → Domain → PartialResult) (ua : String) (d : Domain) :
    PartialResult :=
  match lookup ua with
  | none => inner ua d
  | some entry =>
    if Domain.subd d entry.domains then entry
    else
      let nd := Domain.diff d entry.domains
      let r := inner ua nd
      { string := ua
        domains := Domain.union entry.domains r.domains
        user_agent := optOr entry.user_agent r.user_agent
        os := optOr entry.os r.os
        device := optOr entry.device r.device }

lemma subd_refl (a : Domain) : Domain.subd a a = true := by
  cases a with
  | mk u o d => cases u <;> cases o <;> cases d <;> rfl

lemma subd_union_diff (d e g : Domain) (h : Domain.subd (Domain.diff d e) g = true) :
    Domain.subd d (Domain.union e g) = true := by
  cases d with
  | mk du dos dd =>
    cases e with
    | mk eu eos ed =>
      cases g with
      | mk gu gos gd =>
        simp only [Domain.subd, Domain.diff, Domain.union] at *
        cases du <;> cases dos <;> cases dd <;> cases eu <;> cases eos <;>
          cases ed <;> cases gu <;> cases gos <;> cases gd <;> simp_all

/-- C1, claim: every resolver variant returns a `PartialResult` whose
`domains` is a superset of the requested set.  The linear (`basic.py`)
and prefiltered (`re2.py`) resolvers return exactly the requested set;
`CachingResolver` (`caching.py`) returns a superset for any cache
content, provided the inner resolver satisfies the same at-least
contract. -/
theorem c1_domains_superset (ms : MatchersT) (su so sd : String → List Nat)
    (lookup : String → Option PartialResult)
    (inner : String → Domain → PartialResult)
    (hinner : ∀ ua d, Domain.subd d (inner ua d).domains = true)
    (ua : String) (d : Domain) :
    Domain.subd d (basicResolve ms ua d).domains = true ∧
    Domain.subd d (re2Resolve su so sd ms ua d).domains = true ∧
    Domain.subd d (cachingResolve lookup inner ua d).domains = true := by
  refine ⟨subd_refl d, subd_refl d, ?_⟩
  unfold cachingResolve
  cases h : lookup ua with
  | none => exact hinner ua d
  | some entry =>
    by_cases hs : Domain.subd d entry.domains = true
    · simp [hs]
    · simp only [hs, Bool.false_eq_true, if_false]
      exact subd_union_diff d entry.domains _ (hinner ua (Domain.diff d entry.domains))

/-- C1 witness: the theorem applied to a concrete empty rule set, an empty
cache and the linear resolver as inner resolver. -/
theorem c1_domains_superset_witness :
    Domain.subd (Domain.all)
      (cachingResolve (fun _ => none) (basicResolve ⟨[], [], []⟩) "x" Domain.all).domains
      = true :=
  (c1_domains_superset ⟨[], [], []⟩ (fun _ => []) (fun _ => []) (fun _ => [])
    (fun _ => none) (basicResolve ⟨[], [], []⟩)
    (fun _ _ => subd_refl _) "x" Domain.all).2.2

/-- C10, claim: in the linear and prefiltered resolvers, every domain
field whose bit is not in the requested set is `None`. -/
theorem c10_unrequested_fields_none (ms : MatchersT) (su so sd : String → List Nat)
    (ua : String) (d : Domain) :
    (d.userAgent = false → (basicResolve ms ua d).user_agent = none ∧
      (re2Resolve su so sd ms ua d).user_agent = none) ∧
    (d.os = false → (basicResolve ms ua d).os = none ∧
      (re2Resolve su so sd ms ua d).os = none) ∧
    (d.device = false → (basicResolve ms ua d).device = none ∧
      (re2Resolve su so sd ms ua d).device = none) := by
  refine ⟨fun h => ?_, fun h => ?_, fun h => ?_⟩ <;>
    simp [basicResolve, re2Resolve, h]

/-- C10 witness: concrete instance with only the OS domain requested. -/
theorem c10_unrequested_fields_none_witness :
    (basicResolve ⟨[], [], []⟩ "ua str" ⟨false, true, false⟩).user_agent = none ∧
    (re2Resolve (fun _ => []) (fun _ => []) (fun _ => []) ⟨[], [], []⟩ "ua str"
      ⟨false, true, false⟩).user_agent = none :=
  (c10_unrequested_fields_none ⟨[], [], []⟩ (fun _ => []) (fun _ => [])
    (fun _ => []) "ua str" ⟨false, true, false⟩).1 rfl

/-- The regex-set engine contract (spec 4.3 / C2): for every input, the
engine reports exactly the indices of the patterns that match it, a
pattern "matching" meaning its matcher's `apply` yields a result. -/
def ExactSet {α : Type} (S : String → List Nat) (ms : List (MatcherFn α)) : Prop :=
  ∀ ua i, i ∈ S ua ↔ ∃ m, ms[i]? = some m ∧ (m ua).isSome = true

lemma foldl_min_spec (xs : List Nat) (a : Nat) :
    (xs.foldl Nat.min a = a ∨ xs.foldl Nat.min a ∈ xs) ∧
      xs.foldl Nat.min a ≤ a ∧ ∀ y ∈ xs, xs.foldl Nat.min a ≤ y := by
  induction xs generalizing a with
  | nil => simp
  | cons x xs ih =>
    obtain ⟨hmem, hle, hall⟩ := ih (Nat.min a x)
    have hax : Nat.min a x = a ∨ Nat.min a x = x := by
      rcases Nat.le_total a x with h | h
      · exact Or.inl (Nat.min_eq_left h)
      · exact Or.inr (Nat.min_eq_right h)
    refine ⟨?_, ?_, ?_⟩
    · rcases hmem with h | h
      · rcases hax with h2 | h2
        · left; rw [List.foldl_cons, h, h2]
        · right; rw [List.foldl_cons, h, h2]; exact List.mem_cons_self x xs
      · right; rw [List.foldl_cons]; exact List.mem_cons_of_mem x h
    · rw [List.foldl_cons]; exact le_trans hle (Nat.min_le_left a x)
    · intro y hy
      rw [List.foldl_cons]
      rcases List.mem_cons.mp hy with h | h
      · rw [h]; exact le_trans hle (Nat.min_le_right a x)
      · exact hall y h

lemma minNat_mem (x : Nat) (xs : List Nat) : minNat (x :: xs) ∈ x :: xs := by
  simp only [minNat]
  rcases (foldl_min_spec xs x).1 with h | h
  · rw [h]; exact List.mem_cons_self x xs
  · exact List.mem_cons_of_mem x h

lemma minNat_le (x : Nat) (xs : List Nat) : ∀ y ∈ x :: xs, minNat (x :: xs) ≤ y := by
  intro y hy
  simp only [minNat]
  rcases List.mem_cons.mp hy with h | h
  · rw [h]; exact (foldl_min_spec xs x).2.1
  · exact (foldl_min_spec xs x).2.2 y h

lemma firstMatch_eq_of_least {α : Type} (ms : List (MatcherFn α)) (ua : String)
    (i : Nat) (m : MatcherFn α) (hget : ms[i]? = some m)
    (hsome : (m ua).isSome = true)
    (hleast : ∀ (j : Nat) (m' : MatcherFn α), j < i → ms[j]? = some m' → m' ua = none) :
    firstMatch ms ua = m ua := by
  induction ms generalizing i with
  | nil => simp at hget
  | cons m0 rest ih =>
    cases i with
    | zero =>
      simp only [List.getElem?_cons_zero, Option.some.injEq] at hget
      subst hget
      obtain ⟨r, hr⟩ := Option.isSome_iff_exists.mp hsome
      simp [firstMatch, hr]
    | succ i' =>
      have h0 : m0 ua = none := hleast 0 m0 (Nat.succ_pos i') (by simp)
      simp only [firstMatch, h0]
      rw [List.getElem?_cons_succ] at hget
      exact ih i' hget (fun j m' hj hg => hleast (j + 1) m' (Nat.succ_lt_succ hj) (by rw [List.getElem?_cons_succ]; exact hg))

lemma firstMatch_none {α : Type} (ms : List (MatcherFn α)) (ua : String)
    (h : ∀ (i : Nat) (m : MatcherFn α), ms[i]? = some m → m ua = none) :
    firstMatch ms ua = none := by
  induction ms with
  | nil => rfl
  | cons m0 rest ih =>
    have h0 : m0 ua = none := h 0 m0 (by simp)
    simp only [firstMatch, h0]
    exact ih (fun i m hm => h (i + 1) m (by rw [List.getElem?_cons_succ]; exact hm))

lemma setPick_eq_firstMatch {α : Type} (S : String → List Nat)
    (ms : List (MatcherFn α)) (hE : ExactSet S ms) (ua : String) :
    setPick (S ua) ms ua = firstMatch ms ua := by
  cases hS : S ua with
  | nil =>
    have hnone : firstMatch ms ua = none := by
      apply firstMatch_none
      intro i m hm
      by_contra hne
      have : i ∈ S ua := (hE ua i).mpr ⟨m, hm, Option.isSome_iff_ne_none.mpr hne⟩
      rw [hS] at this
      exact absurd this (List.not_mem_nil i)
    simp [setPick, hnone]
  | cons x xs =>
    have hmem : minNat (x :: xs) ∈ S ua := by rw [hS]; exact minNat_mem x xs
    obtain ⟨m, hget, hsome⟩ := (hE ua (minNat (x :: xs))).mp hmem
    have hfm : firstMatch ms ua = m ua := by
      apply firstMatch_eq_of_least ms ua (minNat (x :: xs)) m hget hsome
      intro j m' hj hg
      by_contra hne
      have hjS : j ∈ S ua := (hE ua j).mpr ⟨m', hg, Option.isSome_iff_ne_none.mpr hne⟩
      rw [hS] at hjS
      exact absurd hj (Nat.not_lt.mpr (minNat_le x xs j hjS))
    simp only [setPick, List.isEmpty_cons, hget, hfm, Bool.false_eq_true, if_false]

/-- C2, claim: under the set-engine contract, the prefiltered resolver
(`re2.py`) returns the same `PartialResult` as the linear resolver
(`basic.py`) for every rule set, input and requested domain set (so in
particular for `Domain.ALL`). -/
theorem c2_prefiltered_eq_linear (ms : MatchersT) (su so sd : String → List Nat)
    (hu : ExactSet su ms.uas) (ho : ExactSet so ms.oss)
    (hd : ExactSet sd ms.devs) (ua : String) (d : Domain) :
    re2Resolve su so sd ms ua d = basicResolve ms ua d := by
  unfold re2Resolve basicResolve
  rw [setPick_eq_firstMatch su ms.uas hu ua,
    setPick_eq_firstMatch so ms.oss ho ua,
    setPick_eq_firstMatch sd ms.devs hd ua]

/-- C2 witness: a one-rule rule set whose single UA matcher always
matches, with the exact set engine reporting index 0 on every input. -/
theorem c2_prefiltered_eq_linear_witness :
    re2Resolve (fun _ => [0]) (fun _ => []) (fun _ => [])
        ⟨[fun _ => some ⟨"F", none, none, none, none⟩], [], []⟩ "x" Domain.all
      = basicResolve ⟨[fun _ => some ⟨"F", none, none, none, none⟩], [], []⟩
          "x" Domain.all := by
  apply c2_prefiltered_eq_linear
  · intro ua i
    cases i with
    | zero => simp
    | succ n => simp
  · intro ua i; simp
  · intro ua i; simp


/-- A regex search match, reduced to what the matchers consume: the list
of capture groups, `groups[i]` being group `i+1` (`none` = the group did
not participate in the match).  `m.re.groups` is `groups.length`. -/
structure RegexMatch where
  groups : List (Option String)
deriving DecidableEq, Repr

/-- `utils.get` / `core._get`: `(m[idx] or None) if 0 < idx <= m.re.groups
else None` — group `idx` if present and non-empty, else `None`. -/
def getGroup (m : RegexMatch) (idx : Nat) : Option String :=
  if 0 < idx ∧ idx ≤ m.groups.length then
    match m.groups[idx - 1]? with
    | some (some s) => if s = "" then none else some s
    | _ => none
  else none

/-- Python whitespace as `str.strip()` removes it from the rule
templates (which only involve ASCII whitespace). -/
def isSpaceChar (c : Char) : Bool :=
  c = ' ' || c = '\t' || c = '\n' || c = '\r' || c = '\x0b' || c = '\x0c'

/-- Python `str.strip()`: drop whitespace from both ends. -/
def pyStrip (cs : List Char) : List Char :=
  ((cs.dropWhile isSpaceChar).reverse.dropWhile isSpaceChar).reverse

/-- The substitution pass of `utils.replacer`:
`re.sub(r"\$(\d)", lambda n: get(m, int(n[1])) or "", repl)` scanning the
template left to right.  The scan carries a flag recording whether a `$`
is pending; digits are ASCII, as in the rule data. -/
def substGo (m : RegexMatch) : Bool → List Char → List Char
  | false, [] => []
  | true, [] => ['$']
  | false, c :: rest =>
    if c = '$' then substGo m true rest else c :: substGo m false rest
  | true, c :: rest =>
    if c.isDigit then ((getGroup m (c.toNat - 48)).getD "").data ++ substGo m false rest
    else if c = '$' then '$' :: substGo m true rest
    else '$' :: c :: substGo m false rest

/-- `re.sub(r"\$(\d)", lambda n: get(m, int(n[1])) or "", repl)`. -/
def substDollars (m : RegexMatch) (cs : List Char) : List Char :=
  substGo m false cs

/-- `utils.replacer` / `core._replacer`: `None` on an empty template, else
substitute, strip, and turn an empty result into `None`. -/
def replacer (repl : String) (m : RegexMatch) : Option String :=
  if repl = "" then none
  else
    let s := String.mk (pyStrip (substDollars m repl.data))
    if s = "" then none else some s

/-- A template token as the spec describes templates: literal text and
`$N` references. -/
inductive Tok where
  | lit (c : Char)
  | ref (n : Nat)
deriving DecidableEq, Repr

/-- Spec-side reading of a template: split it into literal characters and
`$N` references (same pending-`$` scan shape). -/
def tokGo : Bool → List Char → List Tok
  | false, [] => []
  | true, [] => [.lit '$']
  | false, c :: rest =>
    if c = '$' then tokGo true rest else .lit c :: tokGo false rest
  | true, c :: rest =>
    if c.isDigit then .ref (c.toNat - 48) :: tokGo false rest
    else if c = '$' then .lit '$' :: tokGo true rest
    else .lit '$' :: .lit c :: tokGo false rest

/-- Spec-side template reading, whole template. -/
def tokenize (cs : List Char) : List Tok :=
  tokGo false cs

/-- Spec-side rendering: each `$N` becomes group `N`'s text when that
group is present and non-empty, and the empty string otherwise; literal
characters pass through. -/
def renderToks (m : RegexMatch) : List Tok → List Char
  | [] => []
  | .lit c :: rest => c :: renderToks m rest
  | .ref n :: rest => ((getGroup m n).getD "").data ++ renderToks m rest

/-- Spec-side `replacer`, built from the claim's wording: empty template
is `None`; otherwise replace every `$N` reference, strip whitespace, and
map an empty result to `None`. -/
def replacerSpec (repl : String) (m : RegexMatch) : Option String :=
  if repl = "" then none
  else
    let s := String.mk (pyStrip (renderToks m (tokenize repl.data)))
    if s = "" then none else some s

lemma substGo_eq_render (m : RegexMatch) :
    ∀ (cs : List Char) (b : Bool), substGo m b cs = renderToks m (tokGo b cs) := by
  intro cs
  induction cs with
  | nil => intro b; cases b <;> rfl
  | cons c rest ih =>
    intro b
    cases b with
    | false =>
      by_cases h : c = '$' <;> simp [substGo, tokGo, renderToks, h, ih]
    | true =>
      by_cases h1 : c.isDigit = true
      · simp [substGo, tokGo, renderToks, h1, ih]
      · by_cases h2 : c = '$' <;> simp [substGo, tokGo, renderToks, h1, h2, ih]

/-- C5, claim: `replacer(template, m)` returns `None` on an empty or
undefined template (an undefined OS/Device template is materialised as a
default or as `""` by the constructors, so `""` is the embedded form of
both); otherwise it replaces every `$N` by group `N`'s text when present
and non-empty and by `""` otherwise, strips surrounding whitespace, and
returns `None` exactly when the stripped result is empty.  Stated as:
the source `replacer` coincides with `replacerSpec`, the direct
transcription of that description. -/
theorem c5_replacer_spec (repl : String) (m : RegexMatch) :
    replacer repl m = replacerSpec repl m := by
  unfold replacer replacerSpec substDollars tokenize
  rw [substGo_eq_render m repl.data false]

/-- The Python exception kinds the matchers can raise: `MalformedRule` is
a `ValueError` (`raise ValueError(...)` in `matchers.py`); raw group
access `m[1]` can raise `IndexError` (no such group), and passing a
non-participating group (`None`) to `str.replace` raises `TypeError`. -/
inductive PyError where
  | valueError
  | typeError
  | indexError
deriving DecidableEq, Repr

/-- Python `a or dflt` for `a : Optional[str]` with `dflt : str`
(constructor defaulting; `""` is falsy). -/
def pyOrStr (a : Option String) (dflt : String) : String :=
  match a with
  | some s => if s = "" then dflt else s
  | none => dflt

/-- Python `a or b` for `a b : Optional[str]` (`self.major or get(m, 2)`;
`""` is falsy). -/
def pyOrOpt (a b : Option String) : Option String :=
  match a with
  | some s => if s = "" then b else some s
  | none => b

/-- Scan for an occurrence of `$1`, carrying whether the previous
character was `$`. -/
def containsD1 : Bool → List Char → Bool
  | _, [] => false
  | false, c :: rest => containsD1 (c = '$') rest
  | true, c :: rest => if c = '1' then true else containsD1 (c = '$') rest

/-- Python `"$1" in self.family`: substring containment. -/
def hasDollarOne (s : String) : Bool :=
  containsD1 false s.data

/-- Python `template.replace("$1", rep)`: replace every (non-overlapping,
leftmost-first) occurrence of `$1`, scanning with a pending-`$` flag. -/
def replD1Go (rep : List Char) : Bool → List Char → List Char
  | false, [] => []
  | true, [] => ['$']
  | false, c :: rest =>
    if c = '$' then replD1Go rep true rest else c :: replD1Go rep false rest
  | true, c :: rest =>
    if c = '1' then rep ++ replD1Go rep false rest
    else if c = '$' then '$' :: replD1Go rep true rest
    else '$' :: c :: replD1Go rep false rest

/-- `self.family.replace("$1", s)` from `UserAgentMatcher.__call__`. -/
def pyReplaceD1 (tpl s : String) : String :=
  String.mk (replD1Go s.data false tpl.data)

/-- `matchers.UserAgentMatcher` after construction: a compiled regex
(modelled as its search function) and the stored templates
(`family or "$1"`; the four version fields stored as passed). -/
structure UAMatcherM where
  re : String → Option RegexMatch
  family : String
  major : Option String
  minor : Option String
  patch : Option String
  patch_minor : Option String

/-- `UserAgentMatcher.__init__`. -/
def mkUserAgentMatcher (re : String → Option RegexMatch)
    (family major minor patch patch_minor : Option String) : UAMatcherM :=
  ⟨re, pyOrStr family "$1", major, minor, patch, patch_minor⟩

/-- `UserAgentMatcher.__call__`: on a search match, family is
`self.family.replace("$1", m[1])` when the template contains `$1`
(raw group 1: an absent group raises `IndexError`, a non-participating
one makes `str.replace` raise `TypeError`), else the template literal;
the version fields fall back from template to `get(m, 2..5)`. -/
def uaApply (p : UAMatcherM) (ua : String) : Except PyError (Option UserAgent) :=
  match p.re ua with
  | none => .ok none
  | some m =>
    if hasDollarOne p.family then
      match m.groups[0]? with
      | some (some s) =>
        .ok (some ⟨pyReplaceD1 p.family s, pyOrOpt p.major (getGroup m 2),
          pyOrOpt p.minor (getGroup m 3), pyOrOpt p.patch (getGroup m 4),
          pyOrOpt p.patch_minor (getGroup m 5)⟩)
      | some none => .error .typeError
      | none => .error .indexError
    else
      .ok (some ⟨p.family, pyOrOpt p.major (getGroup m 2),
        pyOrOpt p.minor (getGroup m 3), pyOrOpt p.patch (getGroup m 4),
        pyOrOpt p.patch_minor (getGroup m 5)⟩)

/-- `matchers.OSMatcher` after construction (all five templates default
to `$1..$5`). -/
structure OSMatcherM where
  re : String → Option RegexMatch
  family : String
  major : String
  minor : String
  patch : String
  patch_minor : String

/-- `OSMatcher.__init__`. -/
def mkOSMatcher (re : String → Option RegexMatch)
    (family major minor patch patch_minor : Option String) : OSMatcherM :=
  ⟨re, pyOrStr family "$1", pyOrStr major "$2", pyOrStr minor "$3",
    pyOrStr patch "$4", pyOrStr patch_minor "$5"⟩

/-- `OSMatcher.__call__`: `replacer` on every field; a `None` family on a
successful search raises `ValueError` (`MalformedRule`). -/
def osApply (p : OSMatcherM) (ua : String) : Except PyError (Option OS) :=
  match p.re ua with
  | none => .ok none
  | some m =>
    match replacer p.family m with
    | none => .error .valueError
    | some fam =>
      .ok (some ⟨fam, replacer p.major m, replacer p.minor m,
        replacer p.patch m, replacer p.patch_minor m⟩)

/-- `matchers.DeviceMatcher` after construction (`family or "$1"`,
`brand or ""`, `model or "$1"`; the case-insensitive flag is part of the
compiled regex function). -/
structure DeviceMatcherM where
  re : String → Option RegexMatch
  family : String
  brand : String
  model : String

/-- `DeviceMatcher.__init__`. -/
def mkDeviceMatcher (re : String → Option RegexMatch)
    (family brand model : Option String) : DeviceMatcherM :=
  ⟨re, pyOrStr family "$1", pyOrStr brand "", pyOrStr model "$1"⟩

/-- `DeviceMatcher.__call__`. -/
def deviceApply (p : DeviceMatcherM) (ua : String) : Except PyError (Option Device) :=
  match p.re ua with
  | none => .ok none
  | some m =>
    match replacer p.family m with
    | none => .error .valueError
    | some fam => .ok (some ⟨fam, replacer p.brand m, replacer p.model m⟩)

/-- C7, claim: an OS or Device matcher raises `MalformedRule`
(a `ValueError`) exactly when its regex search matches and the family
template resolves to `None`; no match returns `None` without error, and a
resolving family returns a record without error. -/
theorem c7_malformed_rule (om : OSMatcherM) (dm : DeviceMatcherM) (ua : String) :
    ((osApply om ua = .error .valueError) ↔
      ∃ mt, om.re ua = some mt ∧ replacer om.family mt = none) ∧
    (om.re ua = none → osApply om ua = .ok none) ∧
    (∀ mt f, om.re ua = some mt → replacer om.family mt = some f →
      osApply om ua = .ok (some ⟨f, replacer om.major mt, replacer om.minor mt,
        replacer om.patch mt, replacer om.patch_minor mt⟩)) ∧
    ((deviceApply dm ua = .error .valueError) ↔
      ∃ mt, dm.re ua = some mt ∧ replacer dm.family mt = none) ∧
    (dm.re ua = none → deviceApply dm ua = .ok none) ∧
    (∀ mt f, dm.re ua = some mt → replacer dm.family mt = some f →
      deviceApply dm ua = .ok (some ⟨f, replacer dm.brand mt, replacer dm.model mt⟩)) := by
  refine ⟨?_, ?_, ?_, ?_, ?_, ?_⟩
  · cases hre : om.re ua with
    | none => simp [osApply, hre]
    | some mt =>
      cases hf : replacer om.family mt with
      | none => simp [osApply, hre, hf]
      | some f => simp [osApply, hre, hf]
  · intro hre; simp [osApply, hre]
  · intro mt f hre hf; simp [osApply, hre, hf]
  · cases hre : dm.re ua with
    | none => simp [deviceApply, hre]
    | some mt =>
      cases hf : replacer dm.family mt with
      | none => simp [deviceApply, hre, hf]
      | some f => simp [deviceApply, hre, hf]
  · intro hre; simp [deviceApply, hre]
  · intro mt f hre hf; simp [deviceApply, hre, hf]

/-- C7 witness: a device matcher whose regex matches with no capture
groups and the default `$1` family template raises `MalformedRule`, and
an OS matcher whose regex never matches returns `None`. -/
theorem c7_malformed_rule_witness :
    deviceApply (mkDeviceMatcher (fun _ => some ⟨[]⟩) none none none) "w"
        = .error .valueError ∧
    osApply (mkOSMatcher (fun _ => none) none none none none none) "w" = .ok none := by
  constructor
  · exact (c7_malformed_rule (mkOSMatcher (fun _ => none) none none none none none)
      (mkDeviceMatcher (fun _ => some ⟨[]⟩) none none none) "w").2.2.2.1.mpr
      ⟨⟨[]⟩, rfl, by decide⟩
  · exact (c7_malformed_rule (mkOSMatcher (fun _ => none) none none none none none)
      (mkDeviceMatcher (fun _ => some ⟨[]⟩) none none none) "w").2.1 rfl

lemma pyOrOpt_lit (t : String) (b : Option String) (ht : t ≠ "") :
    pyOrOpt (some t) b = some t := by
  simp [pyOrOpt, ht]

lemma pyOrOpt_fallback (a b : Option String) (ha : a = none ∨ a = some "") :
    pyOrOpt a b = b := by
  rcases ha with h | h <;> subst h <;> simp [pyOrOpt]

/-- C8, claim: on an input whose regex search matches (and on which the
matcher returns a record), a `UserAgentMatcher` computes: family = the
template with `$1` substituted by `g(1)` when the template contains `$1`
(g(1) being group 1's text, defined only when present and non-empty),
else the template literal; and each version field = its template literal
when one was given (non-empty, per Python truthiness), else `g(2..5)`.
Behaviour when `g(1)` is undefined is outside the claim (the claim's own
`g` is partial there); the code then substitutes the raw group text
(possibly `""`) or raises. -/
theorem c8_ua_matcher_fields (p : UAMatcherM) (ua : String) (mt : RegexMatch)
    (r : UserAgent) (hre : p.re ua = some mt)
    (hok : uaApply p ua = .ok (some r)) :
    (∀ s, hasDollarOne p.family = true → getGroup mt 1 = some s →
      r.family = pyReplaceD1 p.family s) ∧
    (hasDollarOne p.family = false → r.family = p.family) ∧
    ((∀ t, p.major = some t → t ≠ "" → r.major = some t) ∧
      ((p.major = none ∨ p.major = some "") → r.major = getGroup mt 2)) ∧
    ((∀ t, p.minor = some t → t ≠ "" → r.minor = some t) ∧
      ((p.minor = none ∨ p.minor = some "") → r.minor = getGroup mt 3)) ∧
    ((∀ t, p.patch = some t → t ≠ "" → r.patch = some t) ∧
      ((p.patch = none ∨ p.patch = some "") → r.patch = getGroup mt 4)) ∧
    ((∀ t, p.patch_minor = some t → t ≠ "" → r.patch_minor = some t) ∧
      ((p.patch_minor = none ∨ p.patch_minor = some "") →
        r.patch_minor = getGroup mt 5)) := by
  rw [uaApply, hre] at hok
  dsimp only at hok
  by_cases hd : hasDollarOne p.family
  · rw [if_pos hd] at hok
    cases hg : mt.groups[0]? with
    | none => rw [hg] at hok; exact absurd hok (by simp)
    | some o =>
      cases o with
      | none => rw [hg] at hok; exact absurd hok (by simp)
      | some s0 =>
        rw [hg] at hok
        simp only [Except.ok.injEq, Option.some.injEq] at hok
        subst hok
        refine ⟨?_, ?_, ?_, ?_, ?_, ?_⟩
        · intro s _ hgs
          have h1 : getGroup mt 1 = if s0 = "" then none else some s0 := by
            have hlen : 0 < mt.groups.length := by
              cases hml : mt.groups with
              | nil => rw [hml] at hg; simp at hg
              | cons a l => simp
            simp [getGroup, Nat.one_le_iff_ne_zero.mpr (Nat.pos_iff_ne_zero.mp hlen), hlen, hg]
          rw [h1] at hgs
          by_cases hs0 : s0 = ""
          · rw [if_pos hs0] at hgs; exact absurd hgs (by simp)
          · rw [if_neg hs0] at hgs
            simp only [Option.some.injEq] at hgs
            subst hgs
            rfl
        · intro hf; exact absurd hd (by simp [hf])
        · exact ⟨fun t ht hne => by simp [ht, pyOrOpt_lit t _ hne],
            fun h => by simp [pyOrOpt_fallback _ _ h]⟩
        · exact ⟨fun t ht hne => by simp [ht, pyOrOpt_lit t _ hne],
            fun h => by simp [pyOrOpt_fallback _ _ h]⟩
        · exact ⟨fun t ht hne => by simp [ht, pyOrOpt_lit t _ hne],
            fun h => by simp [pyOrOpt_fallback _ _ h]⟩
        · exact ⟨fun t ht hne => by simp [ht, pyOrOpt_lit t _ hne],
            fun h => by simp [pyOrOpt_fallback _ _ h]⟩
  · rw [if_neg hd] at hok
    simp only [Except.ok.injEq, Option.some.injEq] at hok
    subst hok
    refine ⟨?_, ?_, ?_, ?_, ?_, ?_⟩
    · intro s hdt _; exact absurd hdt hd
    · intro _; rfl
    · exact ⟨fun t ht hne => by simp [ht, pyOrOpt_lit t _ hne],
        fun h => by simp [pyOrOpt_fallback _ _ h]⟩
    · exact ⟨fun t ht hne => by simp [ht, pyOrOpt_lit t _ hne],
        fun h => by simp [pyOrOpt_fallback _ _ h]⟩
    · exact ⟨fun t ht hne => by simp [ht, pyOrOpt_lit t _ hne],
        fun h => by simp [pyOrOpt_fallback _ _ h]⟩
    · exact ⟨fun t ht hne => by simp [ht, pyOrOpt_lit t _ hne],
        fun h => by simp [pyOrOpt_fallback _ _ h]⟩

/-- C8 witness: a matcher with template `Fam $1`, version template `9`,
matching `"ab"` with group 1 = `"X"`: family is the substituted template
and major the literal. -/
theorem c8_ua_matcher_fields_witness :
    (⟨"Fam X", some "9", none, none, none⟩ : UserAgent).family
        = pyReplaceD1 (mkUserAgentMatcher
            (fun s => if s = "ab" then some ⟨[some "X"]⟩ else none)
            (some "Fam $1") (some "9") none none none).family "X" ∧
    (⟨"Fam X", some "9", none, none, none⟩ : UserAgent).major = some "9" := by
  constructor
  · exact (c8_ua_matcher_fields
      (mkUserAgentMatcher (fun s => if s = "ab" then some ⟨[some "X"]⟩ else none)
        (some "Fam $1") (some "9") none none none)
      "ab" ⟨[some "X"]⟩ ⟨"Fam X", some "9", none, none, none⟩
      (by decide) rfl).1 "X" (by decide) (by decide)
  · exact (c8_ua_matcher_fields
      (mkUserAgentMatcher (fun s => if s = "ab" then some ⟨[some "X"]⟩ else none)
        (some "Fam $1") (some "9") none none none)
      "ab" ⟨[some "X"]⟩ ⟨"Fam X", some "9", none, none, none⟩
      (by decide) rfl).2.2.1.1 "9" rfl (by decide)

/-- The concrete regex `(Foo) (\d+)` of scenario S6, as a search
function: at the leftmost position where `Foo`, a space and at least one
digit follow, group 1 is `Foo` and group 2 the maximal digit run. -/
def fooMatchAt : List Char → Option RegexMatch
  | 'F' :: 'o' :: 'o' :: ' ' :: rest =>
    let ds := rest.takeWhile fun c => c.isDigit
    if ds.isEmpty then none else some ⟨[some "Foo", some (String.mk ds)]⟩
  | _ => none

/-- Leftmost-position search loop for `fooMatchAt`. -/
def fooSearchAux : List Char → Option RegexMatch
  | [] => none
  | c :: rest =>
    match fooMatchAt (c :: rest) with
    | some m => some m
    | none => fooSearchAux rest

/-- `re.compile("(Foo) (\d+)").search`. -/
def fooSearch (s : String) : Option RegexMatch :=
  fooSearchAux s.data

/-- C6 counterexample: the claim expects
`DeviceMatcher("(Foo) (\d+)", family="$1", model="")` on `"Foo 42"` to
yield `Device(family="Foo", brand=None, model=None)`, but the
constructor's `model or "$1"` treats the empty template as absent, so
the model falls back to `$1` and the matcher yields
`Device(family="Foo", brand=None, model="Foo")`. -/
theorem c6_counterexample :
    deviceApply (mkDeviceMatcher fooSearch (some "$1") none (some "")) "Foo 42"
        = .ok (some ⟨"Foo", none, some "Foo"⟩) ∧
    (some "Foo" : Option String) ≠ none := by
  exact ⟨rfl, by decide⟩

/-- C6 amended: `DeviceMatcher("(Foo) (\d+)", family="$1 $2")` on
`"Foo 42"` yields `Device(family="Foo 42", brand=None, model="Foo")`
(the model defaults to `$1`), and with `family="$1"`, `model=""` it
yields `Device(family="Foo", brand=None, model="Foo")` (the empty model
template falls back to the `$1` default). -/
theorem c6_substitution_amended :
    deviceApply (mkDeviceMatcher fooSearch (some "$1 $2") none none) "Foo 42"
        = .ok (some ⟨"Foo 42", none, some "Foo"⟩) ∧
    deviceApply (mkDeviceMatcher fooSearch (some "$1") none (some "")) "Foo 42"
        = .ok (some ⟨"Foo", none, some "Foo"⟩) := by
  exact ⟨rfl, rfl⟩

/-- Assoc-list lookup: Python `dict.get`. -/
def lookupKey (l : List (String × PartialResult)) (k : String) :
    Option PartialResult :=
  match l with
  | [] => none
  | (k', v) :: rest => if k' = k then some v else lookupKey rest k

/-- Python `key in dict`. -/
def hasKey (l : List (String × PartialResult)) (k : String) : Bool :=
  (lookupKey l k).isSome

/-- Remove the entry for `k` (keys are unique by construction). -/
def eraseKey (l : List (String × PartialResult)) (k : String) :
    List (String × PartialResult) :=
  match l with
  | [] => []
  | (k', v) :: rest => if k' = k then rest else (k', v) :: eraseKey rest k

/-- `OrderedDict.__setitem__`: replace in place (keeping the position)
when the key is present, else append at the newest end. -/
def odSet (l : List (String × PartialResult)) (k : String) (v : PartialResult) :
    List (String × PartialResult) :=
  match l with
  | [] => [(k, v)]
  | (k', v') :: rest => if k' = k then (k, v) :: rest else (k', v') :: odSet rest k v

/-- `caching.Lru`: an `OrderedDict` ordered oldest (least recently used,
list head) to newest (most recently used, list end), plus the size
bound.  The mutex is irrelevant in this sequential model. -/
structure LruState where
  maxsize : Nat
  cache : List (String × PartialResult)

/-- `Lru.__init__`. -/
def mkLru (n : Nat) : LruState := ⟨n, []⟩

/-- `Lru.__getitem__`: on a hit, `move_to_end` (the value, a dataclass,
is always truthy). -/
def lruGet (s : LruState) (k : String) : Option PartialResult × LruState :=
  match lookupKey s.cache k with
  | some v => (some v, { s with cache := eraseKey s.cache k ++ [(k, v)] })
  | none => (none, s)

/-- `Lru.__setitem__`: evict the oldest entry (`popitem(last=False)`)
when at capacity and the key is new — `popitem` on an empty dict raises
(`none`); then `OrderedDict` assignment. -/
def lruPut (s : LruState) (k : String) (v : PartialResult) : Option LruState :=
  if s.cache.length ≥ s.maxsize ∧ ¬ hasKey s.cache k = true then
    match s.cache with
    | [] => none
    | _ :: rest => some { s with cache := odSet rest k v }
  else some { s with cache := odSet s.cache k v }

/-- A sequence of `Lru.__setitem__` calls. -/
def lruPutSeq (s : LruState) : List (String × PartialResult) → Option LruState
  | [] => some s
  | (k, v) :: ops =>
    match lruPut s k v with
    | some s' => lruPutSeq s' ops
    | none => none

/-- A minimal concrete `PartialResult` used in cache scenarios. -/
def pRes (str : String) : PartialResult :=
  ⟨Domain.all, none, none, none, str⟩

lemma hasKey_cons (k' : String) (v : PartialResult)
    (rest : List (String × PartialResult)) (k : String) :
    hasKey ((k', v) :: rest) k = (k' = k || hasKey rest k) := by
  by_cases h : k' = k <;> simp [hasKey, lookupKey, h]

lemma odSet_fresh (l : List (String × PartialResult)) (k : String)
    (v : PartialResult) (h : hasKey l k = false) : odSet l k v = l ++ [(k, v)] := by
  induction l with
  | nil => rfl
  | cons e rest ih =>
    obtain ⟨k', v'⟩ := e
    rw [hasKey_cons] at h
    simp only [Bool.or_eq_false_iff, decide_eq_false_iff_not] at h
    simp [odSet, h.1, ih h.2]

lemma odSet_keys (l : List (String × PartialResult)) (k : String)
    (v : PartialResult) (h : hasKey l k = true) :
    (odSet l k v).map Prod.fst = l.map Prod.fst := by
  induction l with
  | nil => simp [hasKey, lookupKey] at h
  | cons e rest ih =>
    obtain ⟨k', v'⟩ := e
    by_cases hk : k' = k
    · subst hk; simp [odSet]
    · rw [hasKey_cons] at h
      have h2 : hasKey rest k = true := by simpa [hk] using h
      simp [odSet, hk, ih h2]

lemma odSet_length (l : List (String × PartialResult)) (k : String)
    (v : PartialResult) :
    (odSet l k v).length = if hasKey l k then l.length else l.length + 1 := by
  induction l with
  | nil => simp [odSet, hasKey, lookupKey]
  | cons e rest ih =>
    obtain ⟨k', v'⟩ := e
    by_cases hk : k' = k
    · subst hk; simp [odSet, hasKey_cons]
    · rw [hasKey_cons]
      simp only [odSet, hk, if_false, decide_eq_true_eq]
      by_cases h2 : hasKey rest k = true <;>
        simp [h2, List.length_cons, ih, hk]

/-- C4 counterexample: after `put "a"`, `put "b"`, overwriting `put "a"`
and `put "c"` on `Lru(2)`, the cache holds `{"b","c"}`: the overwrite
left `"a"` at the least-recently-used end (OrderedDict assignment does
not move an existing key), so the next insertion evicted `"a"` — whereas
the claim's "a put of an already-present key ... moves that entry to the
MRU end" would have evicted `"b"` and kept `{"a","c"}`. -/
theorem c4_lru_counterexample :
    (lruPutSeq (mkLru 2)
        [("a", pRes "1"), ("b", pRes "2"), ("a", pRes "3"), ("c", pRes "4")]).map
        (fun s => s.cache.map Prod.fst) = some ["b", "c"] ∧
    some ["b", "c"] ≠ some ["a", "c"] := by
  exact ⟨rfl, by decide⟩

/-- C4 amended: a get hit moves the entry to the MRU end; a put of a new
key when full evicts the LRU end and inserts at the MRU end; a put of an
already-present key replaces the value in place, leaving its recency
position unchanged (it neither evicts nor moves); and the S3 scenario on
`Lru(2)` — put "a", put "b", get "a", put "c" — leaves exactly
`{"a","c"}`. -/
theorem c4_lru_amended :
    (∀ (s : LruState) (k : String) (v : PartialResult),
      lookupKey s.cache k = some v →
      lruGet s k = (some v, { s with cache := eraseKey s.cache k ++ [(k, v)] })) ∧
    (∀ (s : LruState) (k : String) (v e : PartialResult) (k' : String)
      (rest : List (String × PartialResult)),
      hasKey s.cache k = false → s.cache = (k', e) :: rest →
      s.cache.length ≥ s.maxsize →
      lruPut s k v = some { s with cache := rest ++ [(k, v)] }) ∧
    (∀ (s : LruState) (k : String) (v : PartialResult),
      hasKey s.cache k = true →
      lruPut s k v = some { s with cache := odSet s.cache k v } ∧
        (odSet s.cache k v).map Prod.fst = s.cache.map Prod.fst ∧
        lookupKey (odSet s.cache k v) k = some v) ∧
    ((match lruPutSeq (mkLru 2) [("a", pRes "1"), ("b", pRes "2")] with
      | some s2 => (lruPut ((lruGet s2 "a").2) "c" (pRes "3")).map
          (fun s => s.cache.map Prod.fst)
      | none => none) = some ["a", "c"]) := by
  refine ⟨?_, ?_, ?_, ?_⟩
  · intro s k v h
    simp [lruGet, h]
  · intro s k v e k' rest hfresh hcache hlen
    have hrest : hasKey rest k = false := by
      rw [hcache, hasKey_cons] at hfresh
      exact (Bool.or_eq_false_iff.mp hfresh).2
    rw [lruPut, if_pos ⟨hlen, by simp [hfresh]⟩, hcache]
    dsimp only
    rw [odSet_fresh rest k v hrest]
  · intro s k v h
    refine ⟨?_, odSet_keys s.cache k v h, ?_⟩
    · rw [lruPut, if_neg (by simp [h])]
    · clear h
      induction s.cache with
      | nil => simp [odSet, lookupKey]
      | cons e rest ih =>
        obtain ⟨k', v'⟩ := e
        by_cases hk : k' = k
        · subst hk; simp [odSet, lookupKey]
        · simp [odSet, lookupKey, hk, ih]
  · rfl

/-- C4 witness: the amended theorem's overwrite clause applied to a
concrete one-entry cache. -/
theorem c4_lru_amended_witness :
    lruPut ⟨2, [("a", pRes "1")]⟩ "a" (pRes "9")
        = some ⟨2, [("a", pRes "9")]⟩ ∧
    [("a", pRes "9")].map Prod.fst = [("a", pRes "1")].map Prod.fst := by
  have h := (c4_lru_amended).2.2.1 ⟨2, [("a", pRes "1")]⟩ "a" (pRes "9") (by decide)
  exact ⟨h.1, h.2.1⟩

/-- A SIEVE node: key, value and the visited flag.  The intrusive `next`
pointer is positional in this embedding (see `SieveState`). -/
structure SNode where
  key : String
  value : PartialResult
  visited : Bool
deriving DecidableEq, Repr

/-- `caching.Sieve`: the singly-linked intrusive list is embedded
positionally as a list ordered tail (oldest, index 0) to head (newest);
`node.next` is the node at the next index, `head`/`tail` are the list
ends.  `hand` stores the key of the node the scan will resume at.  The
source also stores `prev`, the predecessor of `hand`, used only to
relink around an unlinked node; in this positional model relinking is
list removal and the predecessor is the positional one (the source's
`prev` invariantly equals it: it is set to the predecessor of the new
hand at each eviction and no other operation reorders the list). -/
structure SieveState where
  maxsize : Nat
  nodes : List SNode
  hand : Option String

/-- `Sieve.__init__`. -/
def mkSieve (n : Nat) : SieveState := ⟨n, [], none⟩

/-- Find a node by key (`self.cache.get(key)`; keys are unique). -/
def lookupNode (ns : List SNode) (k : String) : Option SNode :=
  match ns with
  | [] => none
  | n :: rest => if n.key = k then some n else lookupNode rest k

/-- Index of the node with key `k`. -/
def keyIdx (ns : List SNode) (k : String) : Option Nat :=
  match ns with
  | [] => none
  | n :: rest => if n.key = k then some 0 else (keyIdx rest k).map (· + 1)

/-- `entry.visited = True` on a get hit. -/
def setVisited (ns : List SNode) (k : String) : List SNode :=
  ns.map fun n => if n.key = k then ⟨n.key, n.value, true⟩ else n

/-- `e.value = value` on an overwriting put (visited flag untouched). -/
def setValue (ns : List SNode) (k : String) (v : PartialResult) : List SNode :=
  ns.map fun n => if n.key = k then ⟨n.key, v, n.visited⟩ else n

/-- `Sieve.__getitem__`. -/
def sieveGet (s : SieveState) (k : String) : Option PartialResult × SieveState :=
  match lookupNode s.nodes k with
  | some n => (some n.value, { s with nodes := setVisited s.nodes k })
  | none => (none, s)

/-- Number of set visited flags — the walk's termination measure. -/
def countVisited : List SNode → Nat
  | [] => 0
  | n :: rest => (if n.visited then 1 else 0) + countVisited rest

/-- The scan loop of `Sieve._evict`: while the current node is visited,
clear the flag and advance (wrapping from the head back to the tail,
index 0); stop at the first unvisited node.  Fuelled: one unit of fuel
per cleared flag suffices, and exhausted fuel returns the current
position (never reached when called with `countVisited + 1`). -/
def walkGo : Nat → List SNode → Nat → List SNode × Nat
  | 0, ns, i => (ns, i)
  | fuel + 1, ns, i =>
    match ns[i]? with
    | none => (ns, i)
    | some nd =>
      if nd.visited then
        walkGo fuel (ns.set i ⟨nd.key, nd.value, false⟩)
          (if i + 1 < ns.length then i + 1 else 0)
      else (ns, i)

/-- The `Sieve._evict` scan from a start position. -/
def sieveWalk (ns : List SNode) (i : Nat) : List SNode × Nat :=
  walkGo (countVisited ns + 1) ns i

/-- `Sieve._evict`: start at `hand` (else at the tail), scan, unlink the
node the scan stops at, and leave `hand` at its successor.  An empty
list is the `if not obj: return` no-op. -/
def sieveEvict (s : SieveState) : SieveState :=
  if s.nodes.isEmpty then s
  else
    let start :=
      match s.hand with
      | some h => (keyIdx s.nodes h).getD 0
      | none => 0
    let wi := sieveWalk s.nodes start
    { s with
      nodes := wi.1.eraseIdx wi.2
      hand := (wi.1[wi.2 + 1]?).map (fun n => n.key) }

/-- `Sieve.__setitem__`: overwrite in place, else evict at capacity and
append the new node at the head. -/
def sievePut (s : SieveState) (k : String) (v : PartialResult) : SieveState :=
  match lookupNode s.nodes k with
  | some _ => { s with nodes := setValue s.nodes k v }
  | none =>
    let s1 := if s.nodes.length ≥ s.maxsize then sieveEvict s else s
    { s1 with nodes := s1.nodes ++ [⟨k, v, false⟩] }

/-- A sequence of `Sieve.__setitem__` calls. -/
def sievePutSeq (s : SieveState) : List (String × PartialResult) → SieveState
  | [] => s
  | (k, v) :: ops => sievePutSeq (sievePut s k v) ops

lemma walkGo_length (fuel : Nat) :
    ∀ (ns : List SNode) (i : Nat), (walkGo fuel ns i).1.length = ns.length := by
  induction fuel with
  | zero => intro ns i; rfl
  | succ fuel ih =>
    intro ns i
    rw [walkGo]
    cases h : ns[i]? with
    | none => rfl
    | some nd =>
      by_cases hv : nd.visited = true
      · simp only [hv, if_true]
        rw [ih]
        exact List.length_set ns i _
      · simp [hv]

lemma walkGo_idx (fuel : Nat) :
    ∀ (ns : List SNode) (i : Nat), i < ns.length → (walkGo fuel ns i).2 < ns.length := by
  induction fuel with
  | zero => intro ns i h; exact h
  | succ fuel ih =>
    intro ns i h
    rw [walkGo]
    cases hg : ns[i]? with
    | none => exact h
    | some nd =>
      by_cases hv : nd.visited = true
      · simp only [hv, if_true]
        have hlen : (ns.set i ⟨nd.key, nd.value, false⟩).length = ns.length :=
          List.length_set ns i _
        have hmem : (if i + 1 < ns.length then i + 1 else 0) < ns.length := by
          by_cases h2 : i + 1 < ns.length
          · simp [h2]
          · simp only [h2, if_false]
            omega
        have := ih (ns.set i ⟨nd.key, nd.value, false⟩)
          (if i + 1 < ns.length then i + 1 else 0) (by rw [hlen]; exact hmem)
        rw [hlen] at this
        exact this
      · simpa [hv]

lemma keyIdx_lt (k : String) :
    ∀ (ns : List SNode) (j : Nat), keyIdx ns k = some j → j < ns.length := by
  intro ns
  induction ns with
  | nil => intro j h; exact absurd h (by simp [keyIdx])
  | cons n rest ih =>
    intro j h
    rw [keyIdx] at h
    by_cases hk : n.key = k
    · rw [if_pos hk] at h
      injection h with h
      subst h
      simp
    · rw [if_neg hk] at h
      cases hj : keyIdx rest k with
      | none => rw [hj] at h; exact absurd h (by simp)
      | some j' =>
        rw [hj] at h
        have h2 : j' + 1 = j := by simpa using h
        have := ih j' hj
        simp only [List.length_cons]
        omega

lemma sieveEvict_length (s : SieveState) (h : s.nodes ≠ []) :
    (sieveEvict s).nodes.length + 1 = s.nodes.length := by
  have hpos : 0 < s.nodes.length := List.length_pos.mpr h
  have hem : s.nodes.isEmpty = false := by
    cases hns : s.nodes with
    | nil => exact absurd hns h
    | cons a l => rfl
  have hstart : (match s.hand with
      | some hk => (keyIdx s.nodes hk).getD 0
      | none => 0) < s.nodes.length := by
    cases hh : s.hand with
    | none => exact hpos
    | some hk =>
      cases hki : keyIdx s.nodes hk with
      | none => simpa [hki] using hpos
      | some j => simpa [hki] using keyIdx_lt hk s.nodes j hki
  rw [sieveEvict, if_neg (by simp [hem])]
  dsimp only
  have hwl := walkGo_length (countVisited s.nodes + 1) s.nodes
  have hwi := walkGo_idx (countVisited s.nodes + 1) s.nodes _ hstart
  rw [List.length_eraseIdx, sieveWalk, hwl]
  rw [if_pos hwi]
  omega

/-- `caching.CacheEntry`. -/
structure S3Entry where
  key : String
  value : PartialResult
  freq : Nat
deriving DecidableEq, Repr

/-- `caching.S3Fifo`.  The deques hold the pop end (`deque.pop()`) at the
list head and the front (`deque.appendleft`) at the list end.  The
Python `index` maps a key to either the live `CacheEntry` (shared with
the queue that holds it) or a ghost marker string: liveness is embedded
as queue membership (the source keeps them in lockstep), and the ghost
markers as `ghostIdx` entries tagged by a counter — the source
discriminates ghost markers by object identity (`index.get(g) is g`),
and each demotion stores a fresh marker object, which the fresh tag
reproduces. -/
structure S3State where
  maxsize : Nat
  small_target : Nat
  main_target : Int
  small : List S3Entry
  main : List S3Entry
  ghost : List (String × Nat)
  ghostIdx : List (String × Nat)
  ctr : Nat
deriving DecidableEq, Repr

/-- `S3Fifo.__init__`: `small_target = max(1, int(maxsize/10))`,
`main_target = maxsize - small_target` (kept as an integer: it is `-1`
for `maxsize = 0`). -/
def mkS3 (n : Nat) : S3State :=
  ⟨n, max 1 (n / 10), (n : Int) - (max 1 (n / 10) : Nat), [], [], [], [], 0⟩

/-- Find the live entry for `k` in a queue. -/
def findEntry (l : List S3Entry) (k : String) : Option S3Entry :=
  match l with
  | [] => none
  | e :: rest => if e.key = k then some e else findEntry rest k

/-- `type(self.index.get(key)) is CacheEntry`: the key has a live entry. -/
def isLive (s : S3State) (k : String) : Bool :=
  (findEntry s.small k).isSome || (findEntry s.main k).isSome

/-- `e.value = r`: overwrite the live entry's value in place. -/
def updValue (l : List S3Entry) (k : String) (v : PartialResult) : List S3Entry :=
  l.map fun e => if e.key = k then ⟨e.key, v, e.freq⟩ else e

/-- `e.freq = min(e.freq + 1, 3)` on a get hit. -/
def updFreq (l : List S3Entry) (k : String) : List S3Entry :=
  l.map fun e => if e.key = k then ⟨e.key, e.value, min (e.freq + 1) 3⟩ else e

/-- `S3Fifo.__getitem__`. -/
def s3Get (s : S3State) (k : String) : Option PartialResult × S3State :=
  match findEntry s.small k with
  | some e => (some e.value, { s with small := updFreq s.small k })
  | none =>
    match findEntry s.main k with
    | some e => (some e.value, { s with main := updFreq s.main k })
    | none => (none, s)

/-- Assoc lookup in the ghost index. -/
def gLookup (l : List (String × Nat)) (k : String) : Option Nat :=
  match l with
  | [] => none
  | (k', t) :: rest => if k' = k then some t else gLookup rest k

/-- Python dict assignment on the ghost index. -/
def gInsert (l : List (String × Nat)) (k : String) (tag : Nat) :
    List (String × Nat) :=
  match l with
  | [] => [(k, tag)]
  | (k', t) :: rest =>
    if k' = k then (k, tag) :: rest else (k', t) :: gInsert rest k tag

/-- Python `del` on the ghost index. -/
def gErase (l : List (String × Nat)) (k : String) : List (String × Nat) :=
  match l with
  | [] => []
  | (k', t) :: rest => if k' = k then rest else (k', t) :: gErase rest k

/-- Total `freq` of a queue — the fuel bound for `_evict_main`. -/
def sumFreq : List S3Entry → Nat
  | [] => 0
  | e :: rest => e.freq + sumFreq rest

/-- The `while True` loop of `S3Fifo._evict_main`: pop the tail; a
positive `freq` is decremented and the entry reinserted at the front;
a zero `freq` entry is evicted (returned with the remaining queue, its
index slot dropped).  Popping an empty deque is Python `IndexError`
(`none`).  Each non-returning iteration decreases the total `freq`, so
`sumFreq + 1` fuel never runs out. -/
def emGo : Nat → List S3Entry → Option (List S3Entry × String)
  | 0, _ => none
  | _ + 1, [] => none
  | fuel + 1, e :: rest =>
    if e.freq ≠ 0 then emGo fuel (rest ++ [⟨e.key, e.value, e.freq - 1⟩])
    else some (rest, e.key)

/-- `S3Fifo._evict_main` on the main queue. -/
def evictMainGo (l : List S3Entry) : Option (List S3Entry × String) :=
  emGo (sumFreq l + 1) l

/-- `S3Fifo._evict_main` at the state level (the evicted entry leaves
both the queue and, by the membership embedding, the index). -/
def s3EvictMain (s : S3State) : Option S3State :=
  (evictMainGo s.main).map fun r => { s with main := r.1 }

/-- The ghost-capping loop of `_evict_small`: while the ghost deque is
longer than `main_target`, pop its tail and drop the popped marker's
index slot when the index still holds that very marker. -/
def trimGhost (mt : Int) : List (String × Nat) → List (String × Nat) →
    List (String × Nat) × List (String × Nat)
  | [], gIdx => ([], gIdx)
  | g :: rest, gIdx =>
    if ((g :: rest).length : Int) > mt then
      trimGhost mt rest (if gLookup gIdx g.1 = some g.2 then gErase gIdx g.1 else gIdx)
    else (g :: rest, gIdx)

/-- The result of `_evict_small`: the updated queues, ghost structures
and marker counter. -/
structure SmallStep where
  small : List S3Entry
  main : List S3Entry
  ghost : List (String × Nat)
  ghostIdx : List (String × Nat)
  ctr : Nat

/-- `S3Fifo._evict_small`: pop from the small tail; positive-`freq`
entries are promoted to the main front with `freq = 0`; the first
zero-`freq` entry is demoted to a ghost (marker indexed, deque capped)
and the loop stops; an empty small queue ends the loop. -/
def evictSmallGo (mt : Int) :
    List S3Entry → List S3Entry → List (String × Nat) → List (String × Nat) →
      Nat → SmallStep
  | [], main, ghost, gIdx, ctr => ⟨[], main, ghost, gIdx, ctr⟩
  | e :: rest, main, ghost, gIdx, ctr =>
    if e.freq ≠ 0 then
      evictSmallGo mt rest (main ++ [⟨e.key, e.value, 0⟩]) ghost gIdx ctr
    else
      let gIdx' := gInsert gIdx e.key ctr
      let tg := trimGhost mt (ghost ++ [(e.key, ctr)]) gIdx'
      ⟨rest, main, tg.1, tg.2, ctr + 1⟩

/-- `S3Fifo._evict_small` at the state level. -/
def s3EvictSmall (s : S3State) : S3State :=
  let r := evictSmallGo s.main_target s.small s.main s.ghost s.ghostIdx s.ctr
  { s with
    small := r.small
    main := r.main
    ghost := r.ghost
    ghostIdx := r.ghostIdx
    ctr := r.ctr }

/-- The insertion step of `S3Fifo.__setitem__`: a fresh `CacheEntry`
goes to the main front when the key was a ghost (whose marker the index
assignment overwrites), else to the small front. -/
def s3Insert (k : String) (v : PartialResult) (s2 : S3State) : S3State :=
  if (gLookup s2.ghostIdx k).isSome then
    { s2 with
      main := s2.main ++ [⟨k, v, 0⟩]
      ghostIdx := gErase s2.ghostIdx k }
  else { s2 with small := s2.small ++ [⟨k, v, 0⟩] }

/-- `S3Fifo.__setitem__`: overwrite live entries in place; otherwise at
capacity run `_evict_small` when main is under its target, then
`_evict_main` when still at capacity; then insert the new entry. -/
def s3Put (s : S3State) (k : String) (v : PartialResult) : Option S3State :=
  if isLive s k then
    some { s with small := updValue s.small k v, main := updValue s.main k v }
  else
    let s1 :=
      if s.small.length + s.main.length ≥ s.maxsize then
        let sA := if (s.main.length : Int) < s.main_target then s3EvictSmall s else s
        if sA.small.length + sA.main.length ≥ sA.maxsize then s3EvictMain sA
        else some sA
      else some s
    s1.map (s3Insert k v)

/-- A sequence of `S3Fifo.__setitem__` calls. -/
def s3PutSeq (s : S3State) : List (String × PartialResult) → Option S3State
  | [] => some s
  | (k, v) :: ops =>
    match s3Put s k v with
    | some s' => s3PutSeq s' ops
    | none => none

lemma sumFreq_append (a b : List S3Entry) :
    sumFreq (a ++ b) = sumFreq a + sumFreq b := by
  induction a with
  | nil => simp [sumFreq]
  | cons e rest ih => simp [sumFreq, ih]; omega

lemma emGo_spec :
    ∀ (fuel : Nat) (l : List S3Entry), sumFreq l < fuel → l ≠ [] →
      ∃ l' k, emGo fuel l = some (l', k) ∧ l'.length + 1 = l.length ∧
        (l.map S3Entry.key).Perm (k :: l'.map S3Entry.key) := by
  intro fuel
  induction fuel with
  | zero => intro l hf _; omega
  | succ fuel ih =>
    intro l hf hne
    match l with
    | [] => exact absurd rfl hne
    | e :: rest =>
      by_cases hz : e.freq ≠ 0
      · have hstep : emGo (fuel + 1) (e :: rest)
            = emGo fuel (rest ++ [⟨e.key, e.value, e.freq - 1⟩]) := by
          rw [emGo, if_pos hz]
        have hsf : sumFreq (rest ++ [⟨e.key, e.value, e.freq - 1⟩]) < fuel := by
          rw [sumFreq_append]
          simp only [sumFreq] at hf ⊢
          omega
        obtain ⟨l', k, heq, hlen, hperm⟩ :=
          ih (rest ++ [⟨e.key, e.value, e.freq - 1⟩]) hsf (by simp)
        refine ⟨l', k, by rw [hstep]; exact heq, ?_, ?_⟩
        · simpa using hlen
        · refine List.Perm.trans ?_ hperm
          simp only [List.map_cons, List.map_append]
          exact (List.perm_append_singleton _ _).symm
      · refine ⟨rest, e.key, ?_, by simp, ?_⟩
        · rw [emGo, if_neg hz]
        · simp

lemma evictMainGo_spec (l : List S3Entry) (hne : l ≠ []) :
    ∃ l' k, evictMainGo l = some (l', k) ∧ l'.length + 1 = l.length ∧
      (l.map S3Entry.key).Perm (k :: l'.map S3Entry.key) :=
  emGo_spec (sumFreq l + 1) l (Nat.lt_succ_self _) hne


lemma evictSmallGo_sizes (mt : Int) :
    ∀ (small main : List S3Entry) (ghost gIdx : List (String × Nat)) (ctr : Nat),
      ((evictSmallGo mt small main ghost gIdx ctr).small = [] ∧
        (evictSmallGo mt small main ghost gIdx ctr).small.length +
          (evictSmallGo mt small main ghost gIdx ctr).main.length
            = small.length + main.length) ∨
      (evictSmallGo mt small main ghost gIdx ctr).small.length +
        (evictSmallGo mt small main ghost gIdx ctr).main.length + 1
          = small.length + main.length := by
  intro small
  induction small with
  | nil => intro main ghost gIdx ctr; left; exact ⟨rfl, rfl⟩
  | cons e rest ih =>
    intro main ghost gIdx ctr
    by_cases hz : e.freq ≠ 0
    · have h := ih (main ++ [⟨e.key, e.value, 0⟩]) ghost gIdx ctr
      rw [evictSmallGo, if_pos hz]
      rcases h with ⟨h1, h2⟩ | h
      · left
        refine ⟨h1, ?_⟩
        rw [h2]
        simp only [List.length_append, List.length_cons, List.length_nil]
        omega
      · right
        rw [h]
        simp only [List.length_append, List.length_cons, List.length_nil]
        omega
    · right
      rw [evictSmallGo, if_neg hz]
      simp only [List.length_cons]
      omega

lemma s3EvictSmall_fields (s : S3State) :
    (s3EvictSmall s).maxsize = s.maxsize ∧
      (s3EvictSmall s).main_target = s.main_target := ⟨rfl, rfl⟩

lemma s3EvictSmall_sizes (s : S3State) :
    ((s3EvictSmall s).small = [] ∧
      (s3EvictSmall s).small.length + (s3EvictSmall s).main.length
        = s.small.length + s.main.length) ∨
    (s3EvictSmall s).small.length + (s3EvictSmall s).main.length + 1
        = s.small.length + s.main.length :=
  evictSmallGo_sizes s.main_target s.small s.main s.ghost s.ghostIdx s.ctr

lemma s3Insert_spec (k : String) (v : PartialResult) (s2 : S3State) :
    (s3Insert k v s2).small.length + (s3Insert k v s2).main.length
      = s2.small.length + s2.main.length + 1 ∧
    (s3Insert k v s2).maxsize = s2.maxsize ∧
    (s3Insert k v s2).main_target = s2.main_target := by
  unfold s3Insert
  by_cases hg : (gLookup s2.ghostIdx k).isSome = true
  · rw [if_pos hg]
    refine ⟨?_, rfl, rfl⟩
    simp only [List.length_append, List.length_cons, List.length_nil]
    omega
  · rw [if_neg hg]
    refine ⟨?_, rfl, rfl⟩
    simp only [List.length_append, List.length_cons, List.length_nil]
    omega

lemma s3Put_ok (s : S3State) (k : String) (v : PartialResult)
    (hm : 2 ≤ s.maxsize) (ht : 1 ≤ s.main_target)
    (hsz : s.small.length + s.main.length ≤ s.maxsize) :
    ∃ s', s3Put s k v = some s' ∧
      s'.small.length + s'.main.length ≤ s.maxsize ∧
      s'.maxsize = s.maxsize ∧ s'.main_target = s.main_target := by
  rw [s3Put]
  by_cases hl : isLive s k = true
  · rw [if_pos hl]
    refine ⟨_, rfl, ?_, rfl, rfl⟩
    simp [updValue]
    omega
  · rw [if_neg hl]
    have hins : ∀ (s2 : S3State),
        s2.small.length + s2.main.length + 1 ≤ s.maxsize →
        s2.maxsize = s.maxsize → s2.main_target = s.main_target →
        ∃ s', Option.map (s3Insert k v) (some s2) = some s' ∧
          s'.small.length + s'.main.length ≤ s.maxsize ∧
          s'.maxsize = s.maxsize ∧ s'.main_target = s.main_target := by
      intro s2 hle hmx hmt
      obtain ⟨hsz2, hmx2, hmt2⟩ := s3Insert_spec k v s2
      exact ⟨s3Insert k v s2, rfl, by omega, by rw [hmx2, hmx], by rw [hmt2, hmt]⟩
    by_cases hcap : s.small.length + s.main.length ≥ s.maxsize
    · rw [if_pos hcap]
      have hsize : s.small.length + s.main.length = s.maxsize := le_antisymm hsz hcap
      by_cases hmu : (s.main.length : Int) < s.main_target
      · rw [if_pos hmu]
        rcases s3EvictSmall_sizes s with ⟨hemp, hsame⟩ | hdec
        · have hcap2 : (s3EvictSmall s).small.length + (s3EvictSmall s).main.length
              ≥ (s3EvictSmall s).maxsize := by
            rw [hsame, hsize, (s3EvictSmall_fields s).1]
          rw [if_pos hcap2]
          have hmne : (s3EvictSmall s).main ≠ [] := by
            intro hmain
            rw [hemp, hmain] at hsame
            simp only [List.length_nil, Nat.add_zero] at hsame
            omega
          obtain ⟨l', k', heq, hlen, _⟩ := evictMainGo_spec (s3EvictSmall s).main hmne
          rw [s3EvictMain, heq]
          apply hins
          · have h0 : (s3EvictSmall s).small.length = 0 := by rw [hemp]; rfl
            simp only [h0, Nat.zero_add] at hsame
            simp only [h0]
            omega
          · exact (s3EvictSmall_fields s).1
          · exact (s3EvictSmall_fields s).2
        · have hcap2 : ¬((s3EvictSmall s).small.length + (s3EvictSmall s).main.length
              ≥ (s3EvictSmall s).maxsize) := by
            rw [(s3EvictSmall_fields s).1]
            omega
          rw [if_neg hcap2]
          apply hins
          · omega
          · exact (s3EvictSmall_fields s).1
          · exact (s3EvictSmall_fields s).2
      · rw [if_neg hmu]
        rw [if_pos hcap]
        have hmne : s.main ≠ [] := by
          intro hmain
          rw [hmain] at hmu
          simp only [List.length_nil, Nat.cast_zero, not_lt] at hmu
          omega
        obtain ⟨l', k', heq, hlen, _⟩ := evictMainGo_spec s.main hmne
        rw [s3EvictMain, heq]
        apply hins
        · simp only []
          omega
        · rfl
        · rfl
    · rw [if_neg hcap]
      apply hins
      · omega
      · rfl
      · rfl

lemma lruPut_ok (s : LruState) (k : String) (v : PartialResult)
    (h1 : 1 ≤ s.maxsize) (hsz : s.cache.length ≤ s.maxsize) :
    ∃ s', lruPut s k v = some s' ∧ s'.cache.length ≤ s.maxsize ∧
      s'.maxsize = s.maxsize := by
  rw [lruPut]
  by_cases hc : s.cache.length ≥ s.maxsize ∧ ¬ hasKey s.cache k = true
  · rw [if_pos hc]
    match hcc : s.cache with
    | [] =>
      rw [hcc] at hc
      simp only [List.length_nil] at hc
      omega
    | e :: rest =>
      refine ⟨_, rfl, ?_, rfl⟩
      have hfr : hasKey rest k = false := by
        have := hc.2
        rw [hcc] at this
        obtain ⟨k', v'⟩ := e
        rw [hasKey_cons] at this
        simp only [Bool.or_eq_true, not_or] at this
        exact Bool.not_eq_true _ ▸ (by simpa using this.2)
      rw [odSet_length, hfr]
      have : s.cache.length = rest.length + 1 := by rw [hcc]; rfl
      simp only [Bool.false_eq_true, if_false]
      omega
  · rw [if_neg hc]
    refine ⟨_, rfl, ?_, rfl⟩
    rw [odSet_length]
    by_cases hk : hasKey s.cache k = true
    · simp only [hk, if_true]
      exact hsz
    · simp only [hk, Bool.false_eq_true, if_false]
      have : ¬ s.cache.length ≥ s.maxsize := fun hge => hc ⟨hge, by simp [hk]⟩
      omega

lemma lruPutSeq_ok :
    ∀ (ops : List (String × PartialResult)) (s : LruState), 1 ≤ s.maxsize →
      s.cache.length ≤ s.maxsize →
      ∃ s', lruPutSeq s ops = some s' ∧ s'.cache.length ≤ s.maxsize ∧
        s'.maxsize = s.maxsize := by
  intro ops
  induction ops with
  | nil => intro s h1 hsz; exact ⟨s, rfl, hsz, rfl⟩
  | cons op rest ih =>
    intro s h1 hsz
    obtain ⟨k, v⟩ := op
    obtain ⟨s1, heq, hsz1, hmx1⟩ := lruPut_ok s k v h1 hsz
    obtain ⟨s', heq', hsz', hmx'⟩ := ih s1 (by omega) (by omega)
    refine ⟨s', ?_, by omega, by omega⟩
    rw [lruPutSeq, heq]
    dsimp only
    exact heq'

lemma sieveEvict_maxsize (s : SieveState) : (sieveEvict s).maxsize = s.maxsize := by
  rw [sieveEvict]
  split
  · rfl
  · rfl

lemma sievePut_ok (s : SieveState) (k : String) (v : PartialResult)
    (h1 : 1 ≤ s.maxsize) (hsz : s.nodes.length ≤ s.maxsize) :
    (sievePut s k v).nodes.length ≤ s.maxsize ∧
      (sievePut s k v).maxsize = s.maxsize := by
  rw [sievePut]
  cases hl : lookupNode s.nodes k with
  | some n =>
    refine ⟨?_, rfl⟩
    simp only [setValue, List.length_map]
    exact hsz
  | none =>
    by_cases hcap : s.nodes.length ≥ s.maxsize
    · rw [if_pos hcap]
      have hne : s.nodes ≠ [] := by
        intro h
        rw [h] at hcap
        simp only [List.length_nil] at hcap
        omega
      have hev := sieveEvict_length s hne
      refine ⟨?_, by rw [sieveEvict_maxsize]⟩
      simp only [List.length_append, List.length_cons, List.length_nil]
      omega
    · rw [if_neg hcap]
      refine ⟨?_, rfl⟩
      simp only [List.length_append, List.length_cons, List.length_nil]
      omega

lemma sievePutSeq_ok :
    ∀ (ops : List (String × PartialResult)) (s : SieveState), 1 ≤ s.maxsize →
      s.nodes.length ≤ s.maxsize →
      (sievePutSeq s ops).nodes.length ≤ s.maxsize ∧
        (sievePutSeq s ops).maxsize = s.maxsize := by
  intro ops
  induction ops with
  | nil => intro s h1 hsz; exact ⟨hsz, rfl⟩
  | cons op rest ih =>
    intro s h1 hsz
    obtain ⟨k, v⟩ := op
    obtain ⟨hsz1, hmx1⟩ := sievePut_ok s k v h1 hsz
    have := ih (sievePut s k v) (by omega) (by omega)
    rw [sievePutSeq]
    exact ⟨by omega, by omega⟩

lemma s3PutSeq_ok :
    ∀ (ops : List (String × PartialResult)) (s : S3State), 2 ≤ s.maxsize →
      1 ≤ s.main_target → s.small.length + s.main.length ≤ s.maxsize →
      ∃ s', s3PutSeq s ops = some s' ∧
        s'.small.length + s'.main.length ≤ s.maxsize ∧
        s'.maxsize = s.maxsize ∧ s'.main_target = s.main_target := by
  intro ops
  induction ops with
  | nil => intro s hm ht hsz; exact ⟨s, rfl, hsz, rfl, rfl⟩
  | cons op rest ih =>
    intro s hm ht hsz
    obtain ⟨k, v⟩ := op
    obtain ⟨s1, heq, hsz1, hmx1, hmt1⟩ := s3Put_ok s k v hm ht hsz
    obtain ⟨s', heq', hsz', hmx', hmt'⟩ := ih s1 (by omega) (by rw [hmt1]; exact ht)
      (by omega)
    refine ⟨s', ?_, by omega, by rw [hmx', hmx1], by rw [hmt', hmt1]⟩
    rw [s3PutSeq, heq]
    dsimp only
    exact heq'

lemma mkS3_target (n : Nat) (h : 2 ≤ n) : 1 ≤ (mkS3 n).main_target := by
  show (1 : Int) ≤ (n : Int) - (max 1 (n / 10) : Nat)
  have h10 : n / 10 ≤ n - 1 := by omega
  have hmx : max 1 (n / 10) ≤ n - 1 := max_le (by omega) h10
  have : ((max 1 (n / 10) : Nat) : Int) ≤ ((n - 1 : Nat) : Int) := by
    exact_mod_cast hmx
  omega

/-- C3 (amended), claim: for every sequence of puts, `Lru(N)` and
`Sieve(N)` for `N ≥ 1`, and `S3Fifo(N)` for `N ≥ 2`, perform every put
without error and end holding at most `N` entries (live entries:
`len(cache)` for Lru/Sieve, `len(small) + len(main)` for S3Fifo — ghost
markers are key-only, not entries).  The original claim's `N ≥ 1` fails
for `S3Fifo(1)`: its `main_target` is 0, so a second distinct put finds
`main` not under target, skips `_evict_small` and calls `_evict_main` on
an empty deque, raising `IndexError`
(`c3_s3fifo_size_one_counterexample`). -/
theorem c3_cache_bounds (N : Nat) (ops : List (String × PartialResult)) :
    (1 ≤ N → ∃ s, lruPutSeq (mkLru N) ops = some s ∧ s.cache.length ≤ N) ∧
    (1 ≤ N → (sievePutSeq (mkSieve N) ops).nodes.length ≤ N) ∧
    (2 ≤ N → ∃ s, s3PutSeq (mkS3 N) ops = some s ∧
      s.small.length + s.main.length ≤ N) := by
  refine ⟨?_, ?_, ?_⟩
  · intro h1
    obtain ⟨s', heq, hsz, _⟩ := lruPutSeq_ok ops (mkLru N) h1 (by simp [mkLru])
    exact ⟨s', heq, hsz⟩
  · intro h1
    exact (sievePutSeq_ok ops (mkSieve N) h1 (by simp [mkSieve])).1
  · intro h2
    obtain ⟨s', heq, hsz, _, _⟩ := s3PutSeq_ok ops (mkS3 N) h2 (mkS3_target N h2)
      (by simp [mkS3])
    exact ⟨s', heq, hsz⟩

/-- C3 counterexample: `S3Fifo(1)` raises `IndexError` (the put sequence
aborts, `none`) on the second distinct put. -/
theorem c3_s3fifo_size_one_counterexample :
    s3PutSeq (mkS3 1) [("a", pRes "a"), ("b", pRes "b")] = none := by decide

/-- C3 witness: three puts into each size-2 cache succeed and end with
at most 2 entries. -/
theorem c3_cache_bounds_witness :
    (∃ s, lruPutSeq (mkLru 2)
        [("a", pRes "a"), ("b", pRes "b"), ("c", pRes "c")] = some s ∧
      s.cache.length ≤ 2) ∧
    (sievePutSeq (mkSieve 2)
        [("a", pRes "a"), ("b", pRes "b"), ("c", pRes "c")]).nodes.length ≤ 2 ∧
    (∃ s, s3PutSeq (mkS3 2)
        [("a", pRes "a"), ("b", pRes "b"), ("c", pRes "c")] = some s ∧
      s.small.length + s.main.length ≤ 2) := by
  have h := c3_cache_bounds 2 [("a", pRes "a"), ("b", pRes "b"), ("c", pRes "c")]
  exact ⟨h.1 (by decide), h.2.1 (by decide), h.2.2 (by decide)⟩

/-- C9 (amended), claim: `_evict_main` invoked on a nonempty main queue
terminates and removes exactly one entry from the queue (and its key's
index slot, which in this embedding is queue membership itself — ghost
structures and the small queue are untouched); every entry it examines
with `freq > 0` is reinserted at the front with `freq` decremented by
one (the second conjunct is the loop step for such entries, the third
the eviction step).  The original "every invocation (called by put when
the cache is at capacity)" fails for `S3Fifo(1)`, where put invokes it
on an empty main queue and it raises `IndexError` instead of evicting
(`c9_empty_main_counterexample`). -/
theorem c9_evict_main_spec (s : S3State) (e : S3Entry) (rest : List S3Entry) :
    (s.main ≠ [] → ∃ s' k, s3EvictMain s = some s' ∧
      s'.main.length + 1 = s.main.length ∧
      (s.main.map S3Entry.key).Perm (k :: s'.main.map S3Entry.key) ∧
      s'.small = s.small ∧ s'.ghost = s.ghost ∧ s'.ghostIdx = s.ghostIdx ∧
      s'.maxsize = s.maxsize) ∧
    (e.freq ≠ 0 → evictMainGo (e :: rest)
        = evictMainGo (rest ++ [⟨e.key, e.value, e.freq - 1⟩])) ∧
    (e.freq = 0 → evictMainGo (e :: rest) = some (rest, e.key)) := by
  refine ⟨?_, ?_, ?_⟩
  · intro hne
    obtain ⟨l', k, heq, hlen, hperm⟩ := evictMainGo_spec s.main hne
    exact ⟨{ s with main := l' }, k, by rw [s3EvictMain, heq]; rfl, hlen, hperm,
      rfl, rfl, rfl, rfl⟩
  · intro hz
    have h2 : sumFreq (rest ++ [⟨e.key, e.value, e.freq - 1⟩]) + 1
        = sumFreq (e :: rest) := by
      rw [sumFreq_append]
      simp only [sumFreq]
      omega
    rw [evictMainGo, evictMainGo, ← h2]
    rw [emGo, if_pos hz]
  · intro hz
    rw [evictMainGo, emGo, if_neg (by omega)]

/-- C9 counterexample: on `S3Fifo(1)` the second distinct put is at
capacity, finds `main` (empty) not under its target of 0, and invokes
`_evict_main` on the empty main queue, which raises `IndexError`
instead of evicting exactly one entry. -/
theorem c9_empty_main_counterexample :
    (s3Put (mkS3 1) "x" (pRes "x")).bind (fun s1 => s3Put s1 "y" (pRes "y"))
      = none := by decide

/-- C9 witness: a singleton main queue with a zero-frequency entry is
evicted in one step. -/
theorem c9_evict_main_spec_witness :
    ∃ s' k, s3EvictMain ⟨2, 1, 1, [], [⟨"m", pRes "m", 0⟩], [], [], 0⟩ = some s' ∧
      s'.main.length + 1 = 1 ∧
      (["m"].Perm (k :: s'.main.map S3Entry.key)) ∧
      s'.small = [] ∧ s'.ghost = [] ∧ s'.ghostIdx = [] ∧ s'.maxsize = 2 :=
  (c9_evict_main_spec ⟨2, 1, 1, [], [⟨"m", pRes "m", 0⟩], [], [], 0⟩
    ⟨"m", pRes "m", 0⟩ []).1 (by decide)
